import Mathlib

/-!
# Verification of the urban-traffic-sim core (src/app.py)

Shallow embedding of the traffic assignment, closure-redistribution and
serialization engine of `src/app.py`, together with theorems settling the
frozen claims about it.

Python dictionaries keyed by edge identity are embedded as association
lists with a no-duplicate-keys invariant stated where a theorem needs it;
Python's float arithmetic is embedded as exact rational arithmetic; the
random draws (`random.randint`, `random.uniform`) and the external
betweenness-centrality call are passed in as an explicit oracle.
-/

set_option autoImplicit false

namespace TrafficSim

/-- Edge identity key `(u, v, discriminator)` as used by the traffic dict. -/
abbrev TKey := Nat × Nat × Nat

/-- The traffic mapping `edge_traffic`: a Python dict from edge key to volume. -/
abbrev TMap := List (TKey × Nat)

/-- Python `dict` lookup: `m[k]` as an option (first matching binding). -/
def dictGet : TMap → TKey → Option Nat
  | [], _ => none
  | q :: rest, k => if q.1 = k then some q.2 else dictGet rest k

/-- Python `m.get(k, d)`. -/
def dictGetD (m : TMap) (k : TKey) (d : Nat) : Nat :=
  (dictGet m k).getD d

/-- Python `m.pop(k, None)`: the dict without any binding for `k`. -/
def dictPop : TMap → TKey → TMap
  | [], _ => []
  | q :: rest, k => if q.1 = k then dictPop rest k else q :: dictPop rest k

/-- Python `m[k] = v`: the dict updated at `k`. -/
def dictSet (m : TMap) (k : TKey) (v : Nat) : TMap :=
  (k, v) :: dictPop m k

/-- The keys of the dict. -/
def dictKeys (m : TMap) : List TKey :=
  m.map (·.1)

/-- Total mapped volume: `sum(m.values())`. -/
def dictTotal (m : TMap) : Nat :=
  (m.map (·.2)).sum

@[simp] theorem dictGet_nil (k : TKey) : dictGet [] k = none := rfl

theorem dictGet_cons (q : TKey × Nat) (rest : TMap) (k : TKey) :
    dictGet (q :: rest) k = if q.1 = k then some q.2 else dictGet rest k := rfl

@[simp] theorem dictPop_nil (k : TKey) : dictPop [] k = [] := rfl

theorem dictPop_cons (q : TKey × Nat) (rest : TMap) (k : TKey) :
    dictPop (q :: rest) k =
      if q.1 = k then dictPop rest k else q :: dictPop rest k := rfl

theorem dictGet_dictSet_self (m : TMap) (k : TKey) (v : Nat) :
    dictGet (dictSet m k v) k = some v := by
  simp [dictSet, dictGet_cons]

theorem dictGet_dictPop_ne (m : TMap) (k k' : TKey) (h : k' ≠ k) :
    dictGet (dictPop m k) k' = dictGet m k' := by
  induction m with
  | nil => rfl
  | cons q rest ih =>
    by_cases hq : q.1 = k
    · have hne : ¬(q.1 = k') := fun hc => h (hc ▸ hq)
      rw [dictPop_cons, if_pos hq, dictGet_cons, if_neg hne, ih]
    · rw [dictPop_cons, if_neg hq, dictGet_cons, dictGet_cons, ih]

theorem dictGet_dictPop_self (m : TMap) (k : TKey) :
    dictGet (dictPop m k) k = none := by
  induction m with
  | nil => rfl
  | cons q rest ih =>
    by_cases hq : q.1 = k
    · simp [dictPop_cons, hq, ih]
    · simp [dictPop_cons, dictGet_cons, hq, ih]

theorem dictGet_dictSet_ne (m : TMap) (k k' : TKey) (v : Nat) (h : k' ≠ k) :
    dictGet (dictSet m k v) k' = dictGet m k' := by
  have : k ≠ k' := fun hc => h hc.symm
  simp [dictSet, dictGet_cons, this, dictGet_dictPop_ne m k k' h]

theorem dictPop_of_not_mem (m : TMap) (k : TKey)
    (h : ∀ q ∈ m, q.1 ≠ k) : dictPop m k = m := by
  induction m with
  | nil => rfl
  | cons q rest ih =>
    have hq : q.1 ≠ k := h q (List.mem_cons_self _ _)
    simp [dictPop_cons, hq, ih (fun q' hq' => h q' (List.mem_cons_of_mem _ hq'))]

theorem dictGet_eq_none_of_not_mem (m : TMap) (k : TKey)
    (h : ∀ q ∈ m, q.1 ≠ k) : dictGet m k = none := by
  induction m with
  | nil => rfl
  | cons q rest ih =>
    have hq : q.1 ≠ k := h q (List.mem_cons_self _ _)
    simp [dictGet_cons, hq, ih (fun q' hq' => h q' (List.mem_cons_of_mem _ hq'))]

theorem mem_dictPop (m : TMap) (k : TKey) (q : TKey × Nat)
    (h : q ∈ dictPop m k) : q ∈ m := by
  induction m with
  | nil => exact absurd h (by simp)
  | cons a rest ih =>
    by_cases ha : a.1 = k
    · rw [dictPop_cons, if_pos ha] at h
      exact List.mem_cons_of_mem _ (ih h)
    · rw [dictPop_cons, if_neg ha] at h
      rcases List.mem_cons.mp h with h1 | h1
      · exact h1 ▸ List.mem_cons_self _ _
      · exact List.mem_cons_of_mem _ (ih h1)

theorem mem_dictSet (m : TMap) (k : TKey) (v : Nat) (q : TKey × Nat)
    (h : q ∈ dictSet m k v) : q = (k, v) ∨ q ∈ m := by
  rcases List.mem_cons.mp h with h1 | h1
  · exact Or.inl h1
  · exact Or.inr (mem_dictPop m k q h1)

theorem dictKeys_dictPop_sublist (m : TMap) (k : TKey) :
    (dictKeys (dictPop m k)).Sublist (dictKeys m) := by
  induction m with
  | nil => simp
  | cons q rest ih =>
    by_cases hq : q.1 = k
    · rw [dictPop_cons, if_pos hq]
      exact ih.trans (List.sublist_cons_self _ _)
    · rw [dictPop_cons, if_neg hq]
      exact List.Sublist.cons₂ _ ih

theorem not_mem_dictKeys_dictPop (m : TMap) (k : TKey) :
    k ∉ dictKeys (dictPop m k) := by
  induction m with
  | nil => simp [dictKeys]
  | cons a rest ih =>
    by_cases ha : a.1 = k
    · rw [dictPop_cons, if_pos ha]
      exact ih
    · rw [dictPop_cons, if_neg ha]
      simp only [dictKeys, List.map_cons, List.mem_cons]
      rintro (h1 | h1)
      · exact ha h1.symm
      · exact ih h1

theorem dictKeys_dictSet_nodup (m : TMap) (k : TKey) (v : Nat)
    (h : (dictKeys m).Nodup) : (dictKeys (dictSet m k v)).Nodup := by
  have hpop : (dictKeys (dictPop m k)).Nodup :=
    (dictKeys_dictPop_sublist m k).nodup h
  exact List.nodup_cons.mpr ⟨not_mem_dictKeys_dictPop m k, hpop⟩

theorem dictTotal_dictPop (m : TMap) (k : TKey)
    (h : (dictKeys m).Nodup) :
    dictTotal (dictPop m k) + dictGetD m k 0 = dictTotal m := by
  induction m with
  | nil => rfl
  | cons q rest ih =>
    have h' : (q.1 :: dictKeys rest).Nodup := h
    rcases List.nodup_cons.mp h' with ⟨hq, hrest⟩
    by_cases hk : q.1 = k
    · have hnone : ∀ q' ∈ rest, q'.1 ≠ k := by
        intro q' hq' hcontra
        apply hq
        rw [hk, ← hcontra]
        exact List.mem_map_of_mem _ hq'
      rw [dictPop_cons, if_pos hk, dictPop_of_not_mem rest k hnone]
      simp only [dictGetD, dictGet_cons, if_pos hk, Option.getD_some, dictTotal,
        List.map_cons, List.sum_cons]
      omega
    · rw [dictPop_cons, if_neg hk]
      have ihh := ih hrest
      simp only [dictGetD, dictGet_cons, if_neg hk, dictTotal, List.map_cons,
        List.sum_cons] at *
      omega

theorem dictTotal_dictSet (m : TMap) (k : TKey) (v : Nat)
    (h : (dictKeys m).Nodup) :
    dictTotal (dictSet m k v) + dictGetD m k 0 = dictTotal m + v := by
  have := dictTotal_dictPop m k h
  simp only [dictSet, dictTotal, List.map_cons, List.sum_cons] at *
  omega

/-- Per-node attribute dict: projected working coordinates `x`/`y` plus the
original geographic coordinates `lon`/`lat` stored at load time. -/
structure NodeData where
  x : ℚ
  y : ℚ
  lon : Option ℚ := none
  lat : Option ℚ := none
  deriving DecidableEq

/-- Per-edge attribute dict: optional `length`, `highway` classification,
`name`, explicit `geometry` coordinate sequence and `crs` marker. -/
structure EdgeData where
  length : Option ℚ := none
  highway : Option String := none
  nameAttr : Option String := none
  geometry : Option (List (ℚ × ℚ)) := none
  crs : Option String := none
  deriving DecidableEq

/-- A `networkx.DiGraph`: node ids with attribute dicts and directed edges
`(u, v)` with attribute dicts. -/
structure Graph where
  nodes : List (Nat × NodeData)
  edges : List (Nat × Nat × EdgeData)
  deriving DecidableEq

/-- `G.has_edge(u, v)`. -/
def hasEdge (g : Graph) (u v : Nat) : Bool :=
  g.edges.any (fun e => decide (e.1 = u) && decide (e.2.1 = v))

/-- `G.remove_edge(u, v)`: drop the edge `(u, v)`. -/
def removeEdge (g : Graph) (u v : Nat) : Graph :=
  { g with edges := g.edges.filter (fun e => !(decide (e.1 = u) && decide (e.2.1 = v))) }

/-- The edge-attribute dict of `(u, v)` when the edge exists. -/
def edgeAttrs (g : Graph) (u v : Nat) : Option EdgeData :=
  (g.edges.find? (fun e => decide (e.1 = u) && decide (e.2.1 = v))).map (·.2.2)

/-- The node-attribute dict of `n` when the node exists. -/
def nodeAttrs (g : Graph) (n : Nat) : Option NodeData :=
  (g.nodes.find? (fun e => decide (e.1 = n))).map (·.2)

/-- The node identifiers of the graph. -/
def nodeIds (g : Graph) : List Nat :=
  g.nodes.map (·.1)

/-- The directed edge pairs of the graph. -/
def edgePairs (g : Graph) : List (Nat × Nat) :=
  g.edges.map (fun e => (e.1, e.2.1))

/-- The `weight='length'` edge weight used by `nx.shortest_path`: the edge's
`length` attribute, defaulting to `1` when absent. -/
def edgeWeight (g : Graph) (a b : Nat) : ℚ :=
  match edgeAttrs g a b with
  | some d => d.length.getD 1
  | none => 1

/-- The out-neighbours of `a`. -/
def successors (g : Graph) (a : Nat) : List Nat :=
  (g.edges.filter (fun e => decide (e.1 = a))).map (·.2.1)

/-- All node-simple directed paths from `cur` to `tgt` avoiding `visited`,
with at most `fuel` edges. -/
def pathsAux (g : Graph) (tgt : Nat) : Nat → Nat → List Nat → List (List Nat)
  | 0, cur, _ => if cur = tgt then [[cur]] else []
  | fuel + 1, cur, visited =>
    if cur = tgt then [[cur]]
    else
      ((successors g cur).filter (fun n => !decide (n ∈ cur :: visited))).flatMap
        (fun n => (pathsAux g tgt fuel n (cur :: visited)).map (fun p => cur :: p))

/-- The consecutive pairs of a node list: the edges of the path it denotes. -/
def pairsOf : List Nat → List (Nat × Nat)
  | [] => []
  | [_] => []
  | a :: b :: rest => (a, b) :: pairsOf (b :: rest)

/-- The `length`-weighted total weight of a path. -/
def pathWeight (g : Graph) (p : List Nat) : ℚ :=
  (pairsOf p).foldl (fun acc ab => acc + edgeWeight g ab.1 ab.2) 0

/-- First minimum-weight element of a list of candidate paths. -/
def pickMin (g : Graph) : List (List Nat) → Option (List Nat)
  | [] => none
  | p :: ps => some (ps.foldl (fun best q => if pathWeight g q < pathWeight g best then q else best) p)

/-- Embeds `nx.shortest_path(G, u, v, weight='length')`: a minimum
`length`-weight directed path from `u` to `v`, or `none` exactly when the
library call raises `NetworkXNoPath`.  Among equal-weight paths the library
leaves the choice unspecified; here the first one in enumeration order is
taken. -/
def shortestPath (g : Graph) (u v : Nat) : Option (List Nat) :=
  pickMin g (pathsAux g v g.nodes.length u [])

theorem mem_successors (g : Graph) (a n : Nat) :
    n ∈ successors g a ↔ hasEdge g a n = true := by
  simp only [successors, hasEdge, List.mem_map, List.mem_filter, List.any_eq_true,
    Bool.and_eq_true, decide_eq_true_eq]
  constructor
  · rintro ⟨e, ⟨he, h1⟩, h2⟩
    exact ⟨e, he, h1, h2⟩
  · rintro ⟨e, he, h1, h2⟩
    exact ⟨e, ⟨he, h1⟩, h2⟩

theorem pathsAux_sound (g : Graph) (tgt : Nat) :
    ∀ (fuel cur : Nat) (visited : List Nat) (p : List Nat),
      p ∈ pathsAux g tgt fuel cur visited →
      p.head? = some cur ∧ p.getLast? = some tgt ∧
      (∀ ab ∈ pairsOf p, hasEdge g ab.1 ab.2 = true) ∧
      p.Nodup ∧ ∀ x ∈ p, x = cur ∨ x ∉ visited := by
  intro fuel
  induction fuel with
  | zero =>
    intro cur visited p hp
    by_cases hc : cur = tgt
    · simp only [pathsAux, if_pos hc, List.mem_singleton] at hp
      subst hp
      subst hc
      simp [pairsOf]
    · simp [pathsAux, if_neg hc] at hp
  | succ fuel ih =>
    intro cur visited p hp
    by_cases hc : cur = tgt
    · simp only [pathsAux, if_pos hc, List.mem_singleton] at hp
      subst hp
      subst hc
      simp [pairsOf]
    · simp only [pathsAux, if_neg hc, List.mem_flatMap, List.mem_filter,
        List.mem_map, Bool.not_eq_true', decide_eq_false_iff_not] at hp
      rcases hp with ⟨n, ⟨hsucc, hnvis⟩, q, hq, hpq⟩
      subst hpq
      rcases ih n (cur :: visited) q hq with ⟨hhead, hlast, hedges, hnd, hvis⟩
      have hncur : n ≠ cur := fun hcon => hnvis (hcon ▸ List.mem_cons_self _ _)
      rcases q with _ | ⟨n', q'⟩
      · exact absurd hhead (by simp)
      · have hn : n' = n := by simpa using hhead
        refine ⟨rfl, ?_, ?_, ?_, ?_⟩
        · rw [List.getLast?_cons_cons]
          exact hlast
        · intro ab hab
          have hpair : pairsOf (cur :: n' :: q') = (cur, n') :: pairsOf (n' :: q') := rfl
          rw [hpair] at hab
          rcases List.mem_cons.mp hab with h1 | h1
          · subst h1
            rw [hn]
            exact (mem_successors g cur n).mp hsucc
          · exact hedges ab h1
        · refine List.nodup_cons.mpr ⟨?_, hnd⟩
          intro hcur
          rcases hvis cur hcur with h1 | h1
          · exact hncur h1.symm
          · exact h1 (List.mem_cons_self _ _)
        · intro x hx
          rcases List.mem_cons.mp hx with h1 | h1
          · exact Or.inl h1
          · rcases hvis x h1 with h2 | h2
            · subst h2
              exact Or.inr (fun hcon => hnvis (List.mem_cons_of_mem _ hcon))
            · exact Or.inr (fun hcon => h2 (List.mem_cons_of_mem _ hcon))

theorem foldl_pick_mem (g : Graph) (ps : List (List Nat)) (p : List Nat) :
    ps.foldl (fun best q => if pathWeight g q < pathWeight g best then q else best) p
      ∈ p :: ps := by
  induction ps generalizing p with
  | nil => simp
  | cons q ps ih =>
    simp only [List.foldl_cons]
    by_cases hlt : pathWeight g q < pathWeight g p
    · rw [if_pos hlt]
      have := ih q
      simp only [List.mem_cons] at *
      tauto
    · rw [if_neg hlt]
      have := ih p
      simp only [List.mem_cons] at *
      tauto

theorem shortestPath_mem (g : Graph) (u v : Nat) (p : List Nat)
    (h : shortestPath g u v = some p) :
    p ∈ pathsAux g v g.nodes.length u [] := by
  unfold shortestPath at h
  rcases hps : pathsAux g v g.nodes.length u [] with _ | ⟨q, qs⟩
  · rw [hps] at h
    simp [pickMin] at h
  · rw [hps] at h
    simp only [pickMin] at h
    have heq : qs.foldl (fun best q => if pathWeight g q < pathWeight g best then q else best) q = p :=
      Option.some.inj h
    rw [← heq]
    exact foldl_pick_mem g qs q

theorem shortestPath_sound (g : Graph) (u v : Nat) (p : List Nat)
    (h : shortestPath g u v = some p) :
    p.head? = some u ∧ p.getLast? = some v ∧
    (∀ ab ∈ pairsOf p, hasEdge g ab.1 ab.2 = true) ∧ p.Nodup := by
  have := pathsAux_sound g v g.nodes.length u [] p (shortestPath_mem g u v p h)
  exact ⟨this.1, this.2.1, this.2.2.1, this.2.2.2.1⟩

theorem pairsOf_map_fst : ∀ p : List Nat, (pairsOf p).map Prod.fst = p.dropLast
  | [] => rfl
  | [_] => rfl
  | a :: b :: rest => by
    have : pairsOf (a :: b :: rest) = (a, b) :: pairsOf (b :: rest) := rfl
    rw [this, List.map_cons, pairsOf_map_fst (b :: rest)]
    rfl

theorem pairsOf_nodup (p : List Nat) (h : p.Nodup) : (pairsOf p).Nodup := by
  apply List.Nodup.of_map Prod.fst
  rw [pairsOf_map_fst]
  exact h.sublist (List.dropLast_sublist p)

/-- A directed walk from `u` to `v` in the graph: a node sequence starting
at `u`, ending at `v`, whose consecutive pairs are all edges. This is the
"a path exists between the endpoints" notion of the spec; `nx.shortest_path`
raises `NetworkXNoPath` exactly when no such walk exists. -/
def isWalk (g : Graph) (u v : Nat) (p : List Nat) : Prop :=
  p.head? = some u ∧ p.getLast? = some v ∧
    ∀ ab ∈ pairsOf p, hasEdge g ab.1 ab.2 = true

theorem mem_of_getLast?_eq_some {l : List Nat} {a : Nat}
    (h : l.getLast? = some a) : a ∈ l := by
  rcases List.mem_getLast?_eq_getLast (Option.mem_def.mpr h) with ⟨hne, heq⟩
  rw [heq]
  exact List.getLast_mem hne

theorem pairsOf_cons_subset (x : Nat) (l : List Nat) :
    ∀ ab ∈ pairsOf l, ab ∈ pairsOf (x :: l) := by
  intro ab hab
  cases l with
  | nil => exact absurd hab (by simp [pairsOf])
  | cons y l' =>
    have hx : pairsOf (x :: y :: l') = (x, y) :: pairsOf (y :: l') := rfl
    rw [hx]
    exact List.mem_cons_of_mem _ hab

theorem pairsOf_append_right :
    ∀ (xs ys : List Nat), ys ≠ [] → ∀ ab ∈ pairsOf ys, ab ∈ pairsOf (xs ++ ys) := by
  intro xs
  induction xs with
  | nil => intro ys _ ab hab; exact hab
  | cons x xs' ih =>
    intro ys hys ab hab
    exact pairsOf_cons_subset x (xs' ++ ys) ab (ih ys hys ab hab)

theorem walk_shorten (g : Graph) (v : Nat) :
    ∀ (p : List Nat) (u : Nat), isWalk g u v p → ¬p.Nodup →
      ∃ q, isWalk g u v q ∧ q.length < p.length := by
  intro p
  induction p with
  | nil => intro u hw _; exact absurd hw.1 (by simp)
  | cons a rest ih =>
    intro u hw hnd
    have hhead : a = u := by simpa using hw.1
    by_cases hmem : a ∈ rest
    · rcases List.append_of_mem hmem with ⟨r₁, r₂, hr⟩
      subst hr
      have hsplit : a :: (r₁ ++ a :: r₂) = (a :: r₁) ++ (a :: r₂) := by simp
      refine ⟨a :: r₂, ⟨by simpa using hw.1, ?_, ?_⟩, ?_⟩
      · have hlast := hw.2.1
        rw [hsplit, List.getLast?_append_cons] at hlast
        exact hlast
      · intro ab hab
        apply hw.2.2
        rw [hsplit]
        exact pairsOf_append_right (a :: r₁) (a :: r₂) (by simp) ab hab
      · simp only [List.length_cons, List.length_append]
        omega
    · have hrest_nd : ¬rest.Nodup := fun hh => hnd (List.nodup_cons.mpr ⟨hmem, hh⟩)
      rcases hrest : rest with _ | ⟨n, rest'⟩
      · rw [hrest] at hrest_nd
        exact absurd List.nodup_nil hrest_nd
      · subst hrest
        have hw_rest : isWalk g n v (n :: rest') := by
          refine ⟨rfl, ?_, ?_⟩
          · have hlast := hw.2.1
            rw [List.getLast?_cons_cons] at hlast
            exact hlast
          · intro ab hab
            exact hw.2.2 ab (pairsOf_cons_subset a (n :: rest') ab hab)
        rcases ih n hw_rest hrest_nd with ⟨q, hq, hlen⟩
        rcases hq1 : q with _ | ⟨m, q'⟩
        · rw [hq1] at hq
          exact absurd hq.1 (by simp)
        · have hm : m = n := by
            have := hq.1
            rw [hq1] at this
            simpa using this
          refine ⟨a :: q, ⟨by simpa using hhead ▸ rfl, ?_, ?_⟩, ?_⟩
          · rw [hq1, List.getLast?_cons_cons, ← hq1]
            exact hq.2.1
          · intro ab hab
            rw [hq1] at hab
            have hx : pairsOf (a :: m :: q') = (a, m) :: pairsOf (m :: q') := rfl
            rw [hx] at hab
            rcases List.mem_cons.mp hab with h1 | h1
            · subst h1
              rw [hm]
              exact hw.2.2 (a, n) (List.mem_cons_self _ _)
            · rw [← hq1] at h1
              exact hq.2.2 ab h1
          · simp only [List.length_cons] at hlen ⊢
            omega

theorem walk_to_simple (g : Graph) (v : Nat) :
    ∀ (n : Nat) (p : List Nat) (u : Nat), p.length ≤ n → isWalk g u v p →
      ∃ q, isWalk g u v q ∧ q.Nodup := by
  intro n
  induction n with
  | zero =>
    intro p u hlen hw
    rcases p with _ | ⟨a, rest⟩
    · exact absurd hw.1 (by simp)
    · simp at hlen
  | succ n ih =>
    intro p u hlen hw
    by_cases hnd : p.Nodup
    · exact ⟨p, hw, hnd⟩
    · rcases walk_shorten g v p u hw hnd with ⟨q, hq, hlt⟩
      exact ih q u (by omega) hq

theorem hasEdge_endpoints (g : Graph) (a b : Nat)
    (hwf : ∀ e ∈ g.edges, e.1 ∈ nodeIds g ∧ e.2.1 ∈ nodeIds g)
    (h : hasEdge g a b = true) : a ∈ nodeIds g ∧ b ∈ nodeIds g := by
  rcases List.any_eq_true.mp h with ⟨e, he, hpred⟩
  rw [Bool.and_eq_true, decide_eq_true_eq, decide_eq_true_eq] at hpred
  exact ⟨hpred.1 ▸ (hwf e he).1, hpred.2 ▸ (hwf e he).2⟩

theorem walk_nodes_mem (g : Graph)
    (hwf : ∀ e ∈ g.edges, e.1 ∈ nodeIds g ∧ e.2.1 ∈ nodeIds g) :
    ∀ (p : List Nat), (∀ ab ∈ pairsOf p, hasEdge g ab.1 ab.2 = true) →
      2 ≤ p.length → ∀ x ∈ p, x ∈ nodeIds g := by
  intro p
  induction p with
  | nil => intro _ h2; simp at h2
  | cons a rest ih =>
    intro hpairs h2 x hx
    rcases hrest : rest with _ | ⟨b, rest'⟩
    · rw [hrest] at h2
      simp at h2
    · subst hrest
      have hedge : hasEdge g a b = true :=
        hpairs (a, b) (List.mem_cons_self _ _)
      have hab := hasEdge_endpoints g a b hwf hedge
      rcases List.mem_cons.mp hx with h1 | h1
      · exact h1 ▸ hab.1
      · rcases hrest2 : rest' with _ | ⟨c, rest''⟩
        · rw [hrest2] at h1
          have : x = b := by simpa using h1
          exact this ▸ hab.2
        · subst hrest2
          refine ih ?_ (by simp) x h1
          intro ab hab'
          exact hpairs ab (pairsOf_cons_subset a _ ab hab')

theorem nodup_mem_length_le (l L : List Nat) (hnd : l.Nodup)
    (hsub : ∀ x ∈ l, x ∈ L) : l.length ≤ L.length := by
  calc l.length = l.toFinset.card := (List.toFinset_card_of_nodup hnd).symm
    _ ≤ L.toFinset.card := Finset.card_le_card (fun x hx =>
        List.mem_toFinset.mpr (hsub x (List.mem_toFinset.mp hx)))
    _ ≤ L.length := L.toFinset_card_le

theorem pathsAux_complete (g : Graph) (tgt : Nat) :
    ∀ (p : List Nat) (fuel cur : Nat) (visited : List Nat),
      p.head? = some cur → p.getLast? = some tgt →
      (∀ ab ∈ pairsOf p, hasEdge g ab.1 ab.2 = true) →
      p.Nodup → (∀ x ∈ p, x ∉ visited) → p.length ≤ fuel + 1 →
      p ∈ pathsAux g tgt fuel cur visited := by
  intro p
  induction p with
  | nil => intro fuel cur visited h1; simp at h1
  | cons a rest ih =>
    intro fuel cur visited hhead hlast hpairs hnd hvis hlen
    have ha : a = cur := by simpa using hhead
    subst ha
    rcases hrest : rest with _ | ⟨b, rest'⟩
    · subst hrest
      have htgt : a = tgt := by simpa using hlast
      subst htgt
      cases fuel with
      | zero => simp [pathsAux]
      | succ n => simp [pathsAux]
    · subst hrest
      have hlast' : (b :: rest').getLast? = some tgt := by
        rw [List.getLast?_cons_cons] at hlast
        exact hlast
      have htgt_mem : tgt ∈ b :: rest' := mem_of_getLast?_eq_some hlast'
      have hanotin : a ∉ b :: rest' := (List.nodup_cons.mp hnd).1
      have hne_tgt : a ≠ tgt := fun hcon => hanotin (hcon ▸ htgt_mem)
      cases fuel with
      | zero =>
        exfalso
        simp only [List.length_cons] at hlen
        omega
      | succ n =>
        simp only [pathsAux, if_neg hne_tgt, List.mem_flatMap]
        refine ⟨b, ?_, ?_⟩
        · rw [List.mem_filter]
          refine ⟨(mem_successors g a b).mpr
            (hpairs (a, b) (List.mem_cons_self _ _)), ?_⟩
          simp only [Bool.not_eq_true', decide_eq_false_iff_not]
          intro hcon
          rcases List.mem_cons.mp hcon with h1 | h1
          · apply hanotin
            rw [← h1]
            exact List.mem_cons_self _ _
          · exact hvis b (List.mem_cons_of_mem _ (List.mem_cons_self _ _)) h1
        · rw [List.mem_map]
          refine ⟨b :: rest', ?_, rfl⟩
          refine ih n b (a :: visited) rfl hlast' ?_ (List.nodup_cons.mp hnd).2 ?_ ?_
          · intro ab hab
            exact hpairs ab (pairsOf_cons_subset a _ ab hab)
          · intro x hx hcon
            rcases List.mem_cons.mp hcon with h1 | h1
            · exact hanotin (h1 ▸ hx)
            · exact hvis x (List.mem_cons_of_mem _ hx) h1
          · simp only [List.length_cons] at hlen ⊢
            omega

theorem shortestPath_complete (g : Graph) (u v : Nat)
    (hwf : ∀ e ∈ g.edges, e.1 ∈ nodeIds g ∧ e.2.1 ∈ nodeIds g)
    (p : List Nat) (hwalk : isWalk g u v p) :
    ∃ q, shortestPath g u v = some q := by
  rcases walk_to_simple g v p.length p u le_rfl hwalk with ⟨q, hq, hqnd⟩
  have hlen : q.length ≤ g.nodes.length + 1 := by
    by_cases h2 : 2 ≤ q.length
    · have hle : q.length ≤ (nodeIds g).length :=
        nodup_mem_length_le q (nodeIds g) hqnd (walk_nodes_mem g hwf q hq.2.2 h2)
      have hnl : (nodeIds g).length = g.nodes.length := by
        simp [nodeIds]
      omega
    · omega
  have hmem := pathsAux_complete g v q g.nodes.length u [] hq.1 hq.2.1 hq.2.2
    hqnd (by simp) hlen
  unfold shortestPath
  rcases hps : pathsAux g v g.nodes.length u [] with _ | ⟨r, rs⟩
  · rw [hps] at hmem
    simp at hmem
  · exact ⟨_, rfl⟩

theorem shortestPath_eq_none_of_no_walk (g : Graph) (u v : Nat)
    (h : ¬∃ p, isWalk g u v p) : shortestPath g u v = none := by
  rcases hsp : shortestPath g u v with _ | p
  · rfl
  · exfalso
    have hs := shortestPath_sound g u v p hsp
    exact h ⟨p, hs.1, hs.2.1, hs.2.2.1⟩

/-- The embedded path query agrees with walk existence: it returns `none`
exactly when no directed walk joins the endpoints — the condition under
which `nx.shortest_path` raises `NetworkXNoPath`. -/
theorem shortestPath_none_iff_no_walk (g : Graph) (u v : Nat)
    (hwf : ∀ e ∈ g.edges, e.1 ∈ nodeIds g ∧ e.2.1 ∈ nodeIds g) :
    shortestPath g u v = none ↔ ¬∃ p, isWalk g u v p := by
  constructor
  · intro hnone ⟨p, hp⟩
    rcases shortestPath_complete g u v hwf p hp with ⟨q, hq⟩
    rw [hnone] at hq
    exact Option.noConfusion hq
  · exact shortestPath_eq_none_of_no_walk g u v

/-- The redistribution loop: sequentially add `vol` to the key-0 entry of
each consecutive edge of the replacement path. -/
def addAlong (vol : Nat) : TMap → List (Nat × Nat) → TMap
  | m, [] => m
  | m, ab :: rest =>
    addAlong vol (dictSet m (ab.1, ab.2, 0) (dictGetD m (ab.1, ab.2, 0) 0 + vol)) rest

/-- `redistribute_traffic(original_graph, modified_graph, original_traffic,
closed_edge)` from src/app.py: copy the mapping, pop the closed edge's
entry, and when its volume was positive add that volume to every edge of a
shortest replacement path (doing nothing when `NetworkXNoPath` is raised). -/
def redistribute_traffic (originalGraph modifiedGraph : Graph)
    (originalTraffic : TMap) (closedEdge : TKey) : TMap :=
  if 0 < dictGetD originalTraffic closedEdge 0 then
    match shortestPath modifiedGraph closedEdge.1 closedEdge.2.1 with
    | some path =>
      addAlong (dictGetD originalTraffic closedEdge 0)
        (dictPop originalTraffic closedEdge) (pairsOf path)
    | none => dictPop originalTraffic closedEdge
  else dictPop originalTraffic closedEdge

theorem addAlong_keys_nodup (vol : Nat) :
    ∀ (ps : List (Nat × Nat)) (m : TMap), (dictKeys m).Nodup →
      (dictKeys (addAlong vol m ps)).Nodup := by
  intro ps
  induction ps with
  | nil => intro m hm; exact hm
  | cons ab rest ih =>
    intro m hm
    exact ih _ (dictKeys_dictSet_nodup m _ _ hm)

theorem addAlong_total (vol : Nat) :
    ∀ (ps : List (Nat × Nat)) (m : TMap), (dictKeys m).Nodup →
      dictTotal (addAlong vol m ps) = dictTotal m + ps.length * vol := by
  intro ps
  induction ps with
  | nil => intro m _; simp [addAlong]
  | cons ab rest ih =>
    intro m hm
    have hset := dictTotal_dictSet m (ab.1, ab.2, 0)
      (dictGetD m (ab.1, ab.2, 0) 0 + vol) hm
    have hrec := ih (dictSet m (ab.1, ab.2, 0) (dictGetD m (ab.1, ab.2, 0) 0 + vol))
      (dictKeys_dictSet_nodup m _ _ hm)
    show dictTotal (addAlong vol _ rest) = _
    rw [hrec]
    simp only [List.length_cons]
    rw [Nat.add_mul, Nat.one_mul]
    set L := rest.length * vol with hL
    omega

theorem addAlong_get_not_mem (vol : Nat) :
    ∀ (ps : List (Nat × Nat)) (m : TMap) (key : TKey),
      (∀ ab ∈ ps, key ≠ (ab.1, ab.2, 0)) →
      dictGet (addAlong vol m ps) key = dictGet m key := by
  intro ps
  induction ps with
  | nil => intro m key _; rfl
  | cons ab rest ih =>
    intro m key hkey
    have h1 : key ≠ (ab.1, ab.2, 0) := hkey ab (List.mem_cons_self _ _)
    have h2 := ih (dictSet m (ab.1, ab.2, 0) (dictGetD m (ab.1, ab.2, 0) 0 + vol)) key
      (fun cd hcd => hkey cd (List.mem_cons_of_mem _ hcd))
    show dictGet (addAlong vol _ rest) key = _
    rw [h2, dictGet_dictSet_ne _ _ _ _ h1]

theorem addAlong_getD_mem (vol : Nat) :
    ∀ (ps : List (Nat × Nat)) (m : TMap) (ab : Nat × Nat), ps.Nodup → ab ∈ ps →
      dictGetD (addAlong vol m ps) (ab.1, ab.2, 0) 0
        = dictGetD m (ab.1, ab.2, 0) 0 + vol := by
  intro ps
  induction ps with
  | nil => intro m ab _ hmem; exact absurd hmem (by simp)
  | cons cd rest ih =>
    intro m ab hnd hmem
    rcases List.nodup_cons.mp hnd with ⟨hcd, hrest⟩
    rcases List.mem_cons.mp hmem with h1 | h1
    · subst h1
      have hnot : ∀ ef ∈ rest, (ab.1, ab.2, (0 : Nat)) ≠ (ef.1, ef.2, 0) := by
        intro ef hef hcon
        apply hcd
        have h2 : ab.1 = ef.1 ∧ ab.2 = ef.2 := by
          rw [Prod.mk.injEq, Prod.mk.injEq] at hcon
          exact ⟨hcon.1, hcon.2.1⟩
        have : ab = ef := Prod.ext h2.1 h2.2
        exact this ▸ hef
      show dictGetD (addAlong vol _ rest) (ab.1, ab.2, 0) 0 = _
      unfold dictGetD
      rw [addAlong_get_not_mem vol rest _ _ hnot, dictGet_dictSet_self]
      rfl
    · have hab_ne : (ab.1, ab.2, (0 : Nat)) ≠ (cd.1, cd.2, 0) := by
        intro hcon
        apply hcd
        have h2 : ab.1 = cd.1 ∧ ab.2 = cd.2 := by
          rw [Prod.mk.injEq, Prod.mk.injEq] at hcon
          exact ⟨hcon.1, hcon.2.1⟩
        have : ab = cd := Prod.ext h2.1 h2.2
        exact this ▸ h1
      show dictGetD (addAlong vol _ rest) (ab.1, ab.2, 0) 0 = _
      rw [ih _ ab hrest h1]
      unfold dictGetD
      rw [dictGet_dictSet_ne _ _ _ _ hab_ne]

/-- The detour graph: nodes `0, 1, 2`, edges `0→2` and `2→1` (the closed
edge `0→1` is already absent), so the unique replacement path between the
closed edge's endpoints is the two-edge path `[0, 2, 1]`. -/
def gDetour : Graph :=
  ⟨[(0, ⟨0, 0, none, none⟩), (1, ⟨0, 0, none, none⟩), (2, ⟨0, 0, none, none⟩)],
   [(0, 2, {}), (2, 1, {})]⟩

/-- Traffic before the closure of `(0, 1, 0)` for the C1 counterexample. -/
def trC1 : TMap := [((0, 1, 0), 100), ((0, 2, 0), 10), ((2, 1, 0), 10)]

/-- C1 counterexample: closing `(0, 1, 0)` with prior volume 100 over the
detour graph reroutes through the two-edge path `[0, 2, 1]`; each path edge
gains the full 100, so the sum of volumes added across the path's edges is
200, not the closed edge's prior volume 100 as the claim states. -/
theorem C1_claim_counterexample :
    shortestPath gDetour 0 1 = some [0, 2, 1] ∧
    dictGetD trC1 (0, 1, 0) 0 = 100 ∧
    (dictGetD (redistribute_traffic gDetour gDetour trC1 (0, 1, 0)) (0, 2, 0) 0
        - dictGetD trC1 (0, 2, 0) 0)
      + (dictGetD (redistribute_traffic gDetour gDetour trC1 (0, 1, 0)) (2, 1, 0) 0
        - dictGetD trC1 (2, 1, 0) 0) = 200 ∧
    (200 : Nat) ≠ 100 := by
  refine ⟨by decide, by decide, by decide, by decide⟩

/-- C1 (amended): for a closure of an edge with positive volume, if a
replacement shortest path exists then every edge of that path gains exactly
the closed edge's prior volume — so the total added is the prior volume
times the number of path edges, not the prior volume itself; if no path
exists, total mapped volume strictly decreases by exactly the prior volume
and no entry other than the closed edge's changes. -/
theorem C1_amended_redistribution (gOrig gmod : Graph) (tr : TMap) (u v k : Nat)
    (hkeys : (dictKeys tr).Nodup)
    (hpos : 0 < dictGetD tr (u, v, k) 0)
    (hne : hasEdge gmod u v = false) :
    (∀ p, shortestPath gmod u v = some p →
      dictTotal (redistribute_traffic gOrig gmod tr (u, v, k)) + dictGetD tr (u, v, k) 0
        = dictTotal tr + (pairsOf p).length * dictGetD tr (u, v, k) 0 ∧
      ∀ ab ∈ pairsOf p,
        dictGetD (redistribute_traffic gOrig gmod tr (u, v, k)) (ab.1, ab.2, 0) 0
          = dictGetD tr (ab.1, ab.2, 0) 0 + dictGetD tr (u, v, k) 0) ∧
    ((¬∃ p, isWalk gmod u v p) →
      dictTotal (redistribute_traffic gOrig gmod tr (u, v, k)) + dictGetD tr (u, v, k) 0
        = dictTotal tr ∧
      dictGet (redistribute_traffic gOrig gmod tr (u, v, k)) (u, v, k) = none ∧
      ∀ key, key ≠ (u, v, k) →
        dictGetD (redistribute_traffic gOrig gmod tr (u, v, k)) key 0
          = dictGetD tr key 0) := by
  constructor
  · intro p hp
    have hred : redistribute_traffic gOrig gmod tr (u, v, k)
        = addAlong (dictGetD tr (u, v, k) 0) (dictPop tr (u, v, k)) (pairsOf p) := by
      simp only [redistribute_traffic, if_pos hpos]
      rw [show shortestPath gmod (u, v, k).1 (u, v, k).2.1 = some p from hp]
    have hsound := shortestPath_sound gmod u v p hp
    have hpop_nodup : (dictKeys (dictPop tr (u, v, k))).Nodup :=
      (dictKeys_dictPop_sublist tr (u, v, k)).nodup hkeys
    have hab_ne : ∀ ab ∈ pairsOf p, (ab.1, ab.2, (0 : Nat)) ≠ (u, v, k) := by
      intro ab hab hcon
      have hedge := hsound.2.2.1 ab hab
      rw [Prod.mk.injEq, Prod.mk.injEq] at hcon
      rw [hcon.1, hcon.2.1] at hedge
      rw [hedge] at hne
      exact Bool.true_eq_false.mp hne
    constructor
    · rw [hred, addAlong_total _ _ _ hpop_nodup]
      have hpop := dictTotal_dictPop tr (u, v, k) hkeys
      set L := (pairsOf p).length * dictGetD tr (u, v, k) 0 with hL
      omega
    · intro ab hab
      rw [hred, addAlong_getD_mem _ _ _ ab (pairsOf_nodup p hsound.2.2.2) hab]
      unfold dictGetD
      rw [dictGet_dictPop_ne _ _ _ (hab_ne ab hab)]
  · intro hnowalk
    have hp : shortestPath gmod u v = none :=
      shortestPath_eq_none_of_no_walk gmod u v hnowalk
    have hred : redistribute_traffic gOrig gmod tr (u, v, k) = dictPop tr (u, v, k) := by
      simp only [redistribute_traffic, if_pos hpos]
      rw [show shortestPath gmod (u, v, k).1 (u, v, k).2.1 = none from hp]
    refine ⟨?_, ?_, ?_⟩
    · rw [hred]
      exact dictTotal_dictPop tr (u, v, k) hkeys
    · rw [hred]
      exact dictGet_dictPop_self tr (u, v, k)
    · intro key hkey
      rw [hred]
      unfold dictGetD
      rw [dictGet_dictPop_ne _ _ _ hkey]

/-- The disconnected graph: nodes 0 and 1 with no edges at all, so no
replacement walk joins the closed edge's endpoints. -/
def gNoPath : Graph :=
  ⟨[(0, ⟨0, 0, none, none⟩), (1, ⟨0, 0, none, none⟩)], []⟩

/-- Traffic before the closure of `(0, 1, 0)` in the no-path scenario. -/
def trC1n : TMap := [((0, 1, 0), 100)]

/-- Witness for C1: the amended theorem applied to the concrete detour
closure (path branch) and to the disconnected closure (no-path branch),
whose hypotheses hold by computation. -/
theorem C1_amended_redistribution_witness :
    (dictKeys trC1).Nodup ∧ 0 < dictGetD trC1 (0, 1, 0) 0 ∧
    hasEdge gDetour 0 1 = false ∧
    (dictTotal (redistribute_traffic gDetour gDetour trC1 (0, 1, 0))
        + dictGetD trC1 (0, 1, 0) 0
      = dictTotal trC1 + (pairsOf [0, 2, 1]).length * dictGetD trC1 (0, 1, 0) 0) ∧
    (dictTotal (redistribute_traffic gNoPath gNoPath trC1n (0, 1, 0))
        + dictGetD trC1n (0, 1, 0) 0
      = dictTotal trC1n) :=
  ⟨by decide, by decide, by decide,
    ((C1_amended_redistribution gDetour gDetour trC1 0 1 0 (by decide) (by decide)
      (by decide)).1 [0, 2, 1] (by decide)).1,
    ((C1_amended_redistribution gNoPath gNoPath trC1n 0 1 0 (by decide) (by decide)
      (by decide)).2
      ((shortestPath_none_iff_no_walk gNoPath 0 1 (by decide)).mp (by decide))).1⟩

/-- Traffic before the closure of `(0, 1, 0)` for the C2 witness: the first
detour edge already carries 950, the second carries no entry. -/
def trC2 : TMap := [((0, 1, 0), 100), ((0, 2, 0), 950)]

/-- C2 (confirmed): when the closed edge's entry is positive and a shortest
replacement path exists in the modified graph, the returned mapping is the
incoming mapping with the closed key deleted and the closed volume added to
every consecutive path edge's key-0 entry, absent entries counting as 0 and
no value being reclamped. -/
theorem C2_redistribution_path_update (gOrig gmod : Graph) (tr : TMap)
    (u v k : Nat) (p : List Nat)
    (hpos : 0 < dictGetD tr (u, v, k) 0)
    (hne : hasEdge gmod u v = false)
    (hpath : shortestPath gmod u v = some p) :
    dictGet (redistribute_traffic gOrig gmod tr (u, v, k)) (u, v, k) = none ∧
    (∀ ab ∈ pairsOf p,
      dictGetD (redistribute_traffic gOrig gmod tr (u, v, k)) (ab.1, ab.2, 0) 0
        = dictGetD tr (ab.1, ab.2, 0) 0 + dictGetD tr (u, v, k) 0) ∧
    ∀ key, key ≠ (u, v, k) → (∀ ab ∈ pairsOf p, key ≠ (ab.1, ab.2, 0)) →
      dictGetD (redistribute_traffic gOrig gmod tr (u, v, k)) key 0
        = dictGetD tr key 0 := by
  have hred : redistribute_traffic gOrig gmod tr (u, v, k)
      = addAlong (dictGetD tr (u, v, k) 0) (dictPop tr (u, v, k)) (pairsOf p) := by
    simp only [redistribute_traffic, if_pos hpos]
    rw [show shortestPath gmod (u, v, k).1 (u, v, k).2.1 = some p from hpath]
  have hsound := shortestPath_sound gmod u v p hpath
  have hab_ne : ∀ ab ∈ pairsOf p, (ab.1, ab.2, (0 : Nat)) ≠ (u, v, k) := by
    intro ab hab hcon
    have hedge := hsound.2.2.1 ab hab
    rw [Prod.mk.injEq, Prod.mk.injEq] at hcon
    rw [hcon.1, hcon.2.1] at hedge
    rw [hedge] at hne
    exact Bool.true_eq_false.mp hne
  refine ⟨?_, ?_, ?_⟩
  · rw [hred, addAlong_get_not_mem _ _ _ _ (fun ab hab => (hab_ne ab hab).symm)]
    exact dictGet_dictPop_self tr (u, v, k)
  · intro ab hab
    rw [hred, addAlong_getD_mem _ _ _ ab (pairsOf_nodup p hsound.2.2.2) hab]
    unfold dictGetD
    rw [dictGet_dictPop_ne _ _ _ (hab_ne ab hab)]
  · intro key hkey hkeyp
    rw [hred]
    unfold dictGetD
    rw [addAlong_get_not_mem _ _ _ _ hkeyp, dictGet_dictPop_ne _ _ _ hkey]

/-- Witness for C2: the concrete detour closure; the first detour edge ends
at 1050 — above the generation ceiling of 1000, confirming no reclamping —
and the second detour edge's entry is created from an absent entry. -/
theorem C2_redistribution_path_update_witness :
    dictGet (redistribute_traffic gDetour gDetour trC2 (0, 1, 0)) (0, 1, 0) = none ∧
    dictGetD (redistribute_traffic gDetour gDetour trC2 (0, 1, 0)) (0, 2, 0) 0
      = dictGetD trC2 (0, 2, 0) 0 + dictGetD trC2 (0, 1, 0) 0 ∧
    dictGetD trC2 (0, 2, 0) 0 + dictGetD trC2 (0, 1, 0) 0 = 1050 ∧
    dictGetD trC2 (2, 1, 0) 0 = 0 ∧
    dictGetD (redistribute_traffic gDetour gDetour trC2 (0, 1, 0)) (2, 1, 0) 0
      = dictGetD trC2 (2, 1, 0) 0 + dictGetD trC2 (0, 1, 0) 0 ∧
    (1000 : Nat) < 1050 := by
  have h := C2_redistribution_path_update gDetour gDetour trC2 0 1 0 [0, 2, 1]
    (by decide) (by decide) (by decide)
  exact ⟨h.1, h.2.1 (0, 2) (by decide), by decide, by decide,
    h.2.1 (2, 1) (by decide), by decide⟩

/-- Python `int(q)` on a real value: truncation toward zero. -/
def pyInt (q : ℚ) : ℤ :=
  if q < 0 then -⌊-q⌋ else ⌊q⌋

/-- `max(10, min(1000, x))`: the clamp applied to freshly generated volumes. -/
def clampVol (x : ℤ) : ℕ :=
  (max 10 (min 1000 x)).toNat

theorem clampVol_bounds (x : ℤ) : 10 ≤ clampVol x ∧ clampVol x ≤ 1000 := by
  unfold clampVol
  rcases le_total x 1000 with h1 | h1 <;> rcases le_total 10 x with h2 | h2 <;>
    simp [max_def, min_def, h1, h2] <;> omega

/-- The highway classes given factor 3.0 in `generate_traffic`. -/
def primaryTypes : List String :=
  ["motorway", "trunk", "primary", "motorway_link", "trunk_link", "primary_link"]

/-- The highway classes given factor 2.0 in `generate_traffic`. -/
def secondaryTypes : List String :=
  ["secondary", "secondary_link", "tertiary", "tertiary_link"]

/-- The highway classes given factor 1.0 in `generate_traffic`. -/
def regularTypes : List String :=
  ["residential", "unclassified", "road"]

/-- The road-classification factor: `road_factor` starts at 1.0 and is only
reassigned when the `highway` attribute is present. -/
def roadFactor : Option String → ℚ
  | none => 1
  | some t =>
    if t ∈ primaryTypes then 3
    else if t ∈ secondaryTypes then 2
    else if t ∈ regularTypes then 1
    else 1 / 2

/-- The length factor: `clamp(200 / max(length, 50), 0.5, 2.0)` when a
positive `length` attribute is present, else 1.0. -/
def lengthFactor : Option ℚ → ℚ
  | none => 1
  | some len => if 0 < len then min 2 (max (1 / 2) (200 / max len 50)) else 1

/-- `max(bc_edges.values())` over the nonempty centrality dict. -/
def bcMax : List ((Nat × Nat) × ℚ) → ℚ
  | [] => 0
  | e :: rest => rest.foldl (fun m x => max m x.2) e.2

/-- The centrality factor: `1 + 2 * bc[(u, v)] / max(bc.values())` when the
edge appears in the centrality dict with a positive value, else 1.0. -/
def centralityFactor (bc : List ((Nat × Nat) × ℚ)) (u v : Nat) : ℚ :=
  match (bc.find? (fun e => decide (e.1 = (u, v)))).map (·.2) with
  | none => 1
  | some c => if 0 < c then 1 + 2 * c / bcMax bc else 1

/-- The per-call random draws and the external betweenness-centrality result
(`nx.edge_betweenness_centrality`, or the uniform fallback dict built when
that call raises), passed in explicitly. -/
structure GenOracle where
  base : Nat → Nat → Nat
  jitter : Nat → Nat → ℚ
  bc : List ((Nat × Nat) × ℚ)

/-- The volume assigned to one edge by `generate_traffic`:
`max(10, min(1000, int(base * road * length * centrality * random)))`. -/
def edgeVolume (o : GenOracle) (u v : Nat) (d : EdgeData) : ℕ :=
  clampVol (pyInt ((o.base u v : ℚ) * roadFactor d.highway * lengthFactor d.length
    * centralityFactor o.bc u v * o.jitter u v))

/-- `generate_traffic(graph)` from src/app.py: walk the edges and store each
edge's clamped volume under key `(u, v, 0)`. -/
def generate_traffic (g : Graph) (o : GenOracle) : TMap :=
  g.edges.foldl (fun tr e => dictSet tr (e.1, e.2.1, 0) (edgeVolume o e.1 e.2.1 e.2.2)) []

theorem generate_foldl_get_untouched (o : GenOracle) :
    ∀ (edges : List (Nat × Nat × EdgeData)) (m : TMap) (key : TKey),
      (∀ e ∈ edges, (e.1, e.2.1, (0 : Nat)) ≠ key) →
      dictGet (edges.foldl
        (fun tr e => dictSet tr (e.1, e.2.1, 0) (edgeVolume o e.1 e.2.1 e.2.2)) m) key
        = dictGet m key := by
  intro edges
  induction edges with
  | nil => intro m key _; rfl
  | cons a rest ih =>
    intro m key hkey
    rw [List.foldl_cons, ih _ key (fun e he => hkey e (List.mem_cons_of_mem _ he)),
      dictGet_dictSet_ne]
    exact fun hcon => hkey a (List.mem_cons_self _ _) hcon.symm

theorem generate_foldl_lookup (o : GenOracle) :
    ∀ (edges : List (Nat × Nat × EdgeData)) (m : TMap),
      (edges.map (fun e => (e.1, e.2.1))).Nodup →
      ∀ e ∈ edges,
        dictGet (edges.foldl
          (fun tr e' => dictSet tr (e'.1, e'.2.1, 0) (edgeVolume o e'.1 e'.2.1 e'.2.2)) m)
          (e.1, e.2.1, 0) = some (edgeVolume o e.1 e.2.1 e.2.2) := by
  intro edges
  induction edges with
  | nil => intro m _ e hmem; exact absurd hmem (by simp)
  | cons a rest ih =>
    intro m hnd e hmem
    have hnd' : ((a.1, a.2.1) :: rest.map (fun e => (e.1, e.2.1))).Nodup := hnd
    rcases List.nodup_cons.mp hnd' with ⟨hha, hrest⟩
    rcases List.mem_cons.mp hmem with h1 | h1
    · subst h1
      rw [List.foldl_cons]
      rw [generate_foldl_get_untouched o rest _ (e.1, e.2.1, 0) ?hne]
      · exact dictGet_dictSet_self _ _ _
      case hne =>
        intro e' he' hcon
        apply hha
        have h2 : e'.1 = e.1 ∧ e'.2.1 = e.2.1 := by
          rw [Prod.mk.injEq, Prod.mk.injEq] at hcon
          exact ⟨hcon.1, hcon.2.1⟩
        rw [← h2.1, ← h2.2]
        exact List.mem_map_of_mem _ he'
    · rw [List.foldl_cons]
      exact ih _ hrest e h1

theorem generate_foldl_values (o : GenOracle) :
    ∀ (edges : List (Nat × Nat × EdgeData)) (m : TMap),
      (∀ q ∈ m, 10 ≤ q.2 ∧ q.2 ≤ 1000) →
      ∀ q ∈ edges.foldl
        (fun tr e => dictSet tr (e.1, e.2.1, 0) (edgeVolume o e.1 e.2.1 e.2.2)) m,
        10 ≤ q.2 ∧ q.2 ≤ 1000 := by
  intro edges
  induction edges with
  | nil => intro m hm q hq; exact hm q hq
  | cons a rest ih =>
    intro m hm q hq
    rw [List.foldl_cons] at hq
    refine ih _ ?_ q hq
    intro q' hq'
    rcases mem_dictSet _ _ _ _ hq' with h1 | h1
    · rw [h1]
      exact clampVol_bounds _
    · exact hm q' h1

theorem generate_foldl_disc_zero (o : GenOracle) :
    ∀ (edges : List (Nat × Nat × EdgeData)) (m : TMap),
      (∀ q ∈ m, q.1.2.2 = 0) →
      ∀ q ∈ edges.foldl
        (fun tr e => dictSet tr (e.1, e.2.1, 0) (edgeVolume o e.1 e.2.1 e.2.2)) m,
        q.1.2.2 = 0 := by
  intro edges
  induction edges with
  | nil => intro m hm q hq; exact hm q hq
  | cons a rest ih =>
    intro m hm q hq
    rw [List.foldl_cons] at hq
    refine ih _ ?_ q hq
    intro q' hq'
    rcases mem_dictSet _ _ _ _ hq' with h1 | h1
    · rw [h1]
    · exact hm q' h1

theorem generate_traffic_disc_zero (g : Graph) (o : GenOracle) :
    ∀ q ∈ generate_traffic g o, q.1.2.2 = 0 :=
  generate_foldl_disc_zero o g.edges [] (by simp)

/-- The single-edge graph with no attributes, used for the C5 counterexample. -/
def gC5 : Graph :=
  ⟨[(0, ⟨0, 0, none, none⟩), (1, ⟨0, 0, none, none⟩)], [(0, 1, {})]⟩

/-- Oracle draws for the C5 counterexample: base 100, jitter 1, centrality
dict empty (every factor other than classification is neutral). -/
def oC5 : GenOracle :=
  ⟨fun _ _ => 100, fun _ _ => 1, []⟩

theorem gen_gC5_lookup : dictGet (generate_traffic gC5 oC5) (0, 1, 0) = some 100 := by
  have hvol : edgeVolume oC5 0 1 {} = 100 := by
    simp only [edgeVolume, oC5, roadFactor, lengthFactor, centralityFactor,
      List.find?_nil, Option.map_none']
    norm_num [pyInt, clampVol]
    rfl
  have hget : dictGet (generate_traffic gC5 oC5) (0, 1, 0)
      = some (edgeVolume oC5 0 1 {}) := rfl
  rw [hget, hvol]

/-- C5 counterexample: on an edge with no `highway` attribute the code keeps
the initial factor 1.0 — the generated volume is 100, not the 50 the
claimed 0.5 factor for an absent classification would give. -/
theorem C5_claim_counterexample :
    roadFactor none = 1 ∧ (1 : ℚ) ≠ 1 / 2 ∧
    dictGet (generate_traffic gC5 oC5) (0, 1, 0) = some 100 ∧
    clampVol (pyInt ((100 : ℚ) * (1 / 2) * 1 * 1 * 1)) = 50 ∧ (100 : Nat) ≠ 50 := by
  refine ⟨rfl, by norm_num, gen_gC5_lookup, ?_, by decide⟩
  norm_num [pyInt, clampVol]
  rfl

/-- C5 (amended): the classification factor is 3.0 on the primary classes,
2.0 on the secondary/tertiary classes, 1.0 on residential/unclassified/road,
0.5 on any other present classification — and 1.0, not 0.5, when the
classification attribute is absent. -/
theorem C5_amended_road_factor :
    (∀ s ∈ primaryTypes, roadFactor (some s) = 3) ∧
    (∀ s ∈ secondaryTypes, roadFactor (some s) = 2) ∧
    (∀ s ∈ regularTypes, roadFactor (some s) = 1) ∧
    (∀ s : String, s ∉ primaryTypes → s ∉ secondaryTypes → s ∉ regularTypes →
      roadFactor (some s) = 1 / 2) ∧
    roadFactor none = 1 := by
  refine ⟨by decide, by decide, by decide, ?_, by decide⟩
  intro s h1 h2 h3
  simp [roadFactor, h1, h2, h3]

/-- Witness for C5: the amended factor table evaluated at a primary class, a
service road and an absent attribute. -/
theorem C5_amended_road_factor_witness :
    roadFactor (some "motorway") = 3 ∧ roadFactor (some "service") = 1 / 2 ∧
    roadFactor none = 1 :=
  ⟨C5_amended_road_factor.1 "motorway" (by decide),
   C5_amended_road_factor.2.2.2.1 "service" (by decide) (by decide) (by decide),
   C5_amended_road_factor.2.2.2.2⟩

/-- Round to the nearest integer, as the C6 claim's `round(...)` prescribes. -/
def roundNearest (q : ℚ) : ℤ :=
  ⌊q + 1 / 2⌋

/-- The per-edge volume the spec's words prescribe: round to nearest, then
clamp — to be compared with the source's truncating `edgeVolume`. -/
def specRoundVolume (q : ℚ) : ℕ :=
  clampVol (roundNearest q)

/-- The C6 counterexample edge: `length` 150 makes the length factor 4/3, so
the product 50 * 1 * 4/3 * 1 * 1 = 200/3 is not an integer. -/
def eC6 : EdgeData := { length := some 150 }

/-- Single-edge graph for the C6 counterexample and witness. -/
def gC6 : Graph :=
  ⟨[(0, ⟨0, 0, none, none⟩), (1, ⟨0, 0, none, none⟩)], [(0, 1, eC6)]⟩

/-- Oracle draws for C6: base 50, jitter 1, empty centrality dict. -/
def oC6 : GenOracle :=
  ⟨fun _ _ => 50, fun _ _ => 1, []⟩

theorem gen_gC6_lookup : dictGet (generate_traffic gC6 oC6) (0, 1, 0) = some 66 := by
  have hvol : edgeVolume oC6 0 1 eC6 = 66 := by
    simp only [edgeVolume, oC6, eC6, roadFactor, lengthFactor, centralityFactor,
      List.find?_nil, Option.map_none']
    norm_num [pyInt, clampVol]
    rfl
  have hget : dictGet (generate_traffic gC6 oC6) (0, 1, 0)
      = some (edgeVolume oC6 0 1 eC6) := rfl
  rw [hget, hvol]

/-- C6 counterexample: the generated volume is `int(200/3) = 66` (truncation
toward zero), while the claimed round-to-nearest formula gives 67. -/
theorem C6_claim_counterexample :
    dictGet (generate_traffic gC6 oC6) (0, 1, 0) = some 66 ∧
    specRoundVolume ((50 : ℚ) * roadFactor eC6.highway * lengthFactor eC6.length
      * centralityFactor oC6.bc 0 1 * oC6.jitter 0 1) = 67 ∧
    (66 : Nat) ≠ 67 := by
  refine ⟨gen_gC6_lookup, ?_, by decide⟩
  simp only [specRoundVolume, roundNearest, oC6, eC6, roadFactor, lengthFactor,
    centralityFactor, List.find?_nil, Option.map_none']
  norm_num [clampVol]
  rfl

/-- C6 (amended): for every edge of a graph whose directed edge pairs are
distinct, the freshly generated volume is the truncation toward zero
(Python `int(...)`, not round-to-nearest) of base * classification * length
* centrality * jitter, clamped to [10, 1000]. -/
theorem C6_amended_volume_formula (g : Graph) (o : GenOracle)
    (hnd : (g.edges.map (fun e => (e.1, e.2.1))).Nodup) :
    ∀ e ∈ g.edges,
      dictGet (generate_traffic g o) (e.1, e.2.1, 0)
        = some (clampVol (pyInt ((o.base e.1 e.2.1 : ℚ) * roadFactor e.2.2.highway
            * lengthFactor e.2.2.length * centralityFactor o.bc e.1 e.2.1
            * o.jitter e.1 e.2.1))) := by
  intro e he
  exact generate_foldl_lookup o g.edges [] hnd e he

/-- Witness for C6: the amended formula evaluated on the concrete C6 edge. -/
theorem C6_amended_volume_formula_witness :
    (gC6.edges.map (fun e => (e.1, e.2.1))).Nodup ∧
    dictGet (generate_traffic gC6 oC6) (0, 1, 0)
      = some (clampVol (pyInt ((oC6.base 0 1 : ℚ) * roadFactor eC6.highway
          * lengthFactor eC6.length * centralityFactor oC6.bc 0 1
          * oC6.jitter 0 1))) :=
  ⟨by decide, C6_amended_volume_formula gC6 oC6 (by decide) (0, 1, eC6) (by decide)⟩

theorem dictGet_mem (m : TMap) (k : TKey) (v : Nat) (h : dictGet m k = some v) :
    ∃ q ∈ m, q.2 = v := by
  induction m with
  | nil => simp [dictGet] at h
  | cons a rest ih =>
    rw [dictGet_cons] at h
    by_cases ha : a.1 = k
    · rw [if_pos ha] at h
      exact ⟨a, List.mem_cons_self _ _, Option.some.inj h⟩
    · rw [if_neg ha] at h
      rcases ih h with ⟨q, hq, hv⟩
      exact ⟨q, List.mem_cons_of_mem _ hq, hv⟩

/-- C7 (confirmed): every volume present in a freshly generated traffic
mapping lies in [10, 1000], for every graph and every draw of the random
and centrality oracles. -/
theorem C7_generated_volume_range (g : Graph) (o : GenOracle) (key : TKey)
    (val : Nat) (h : dictGet (generate_traffic g o) key = some val) :
    10 ≤ val ∧ val ≤ 1000 := by
  rcases dictGet_mem _ _ _ h with ⟨q, hq, hv⟩
  have hb := generate_foldl_values o g.edges [] (by simp) q hq
  rw [hv] at hb
  exact hb

/-- Witness for C7: the concrete generated mapping of the C5 graph. -/
theorem C7_generated_volume_range_witness :
    dictGet (generate_traffic gC5 oC5) (0, 1, 0) = some 100 ∧
    10 ≤ 100 ∧ 100 ≤ 1000 :=
  ⟨gen_gC5_lookup, C7_generated_volume_range gC5 oC5 (0, 1, 0) 100 gen_gC5_lookup⟩

/-- Python `str.replace(old = underscore, new = space)` on the highway tag. -/
def underscoreToSpace (s : String) : String :=
  String.mk (s.data.map (fun c => if c = '_' then ' ' else c))

/-- One step of Python `str.title()`: uppercase a letter that follows a
non-letter, lowercase the rest; the flag records whether the previous
character was a letter. -/
def titleStep : List Char × Bool → Char → List Char × Bool
  | (acc, prevAlpha), c =>
    ((if prevAlpha then c.toLower else c.toUpper) :: acc, c.isAlpha)

/-- Python `str.title()`. -/
def pyTitle (s : String) : String :=
  String.mk ((s.data.foldl titleStep ([], false)).1.reverse)

/-- The `name` property of a line feature: the `name` attribute, else the
title-cased highway tag, else "Unnamed Road". -/
def edgeName (d : EdgeData) : String :=
  match d.nameAttr with
  | some n => n
  | none =>
    match d.highway with
    | some h => pyTitle (underscoreToSpace h)
    | none => "Unnamed Road"

/-- `graph.nodes[n].get('lon', graph.nodes[n]['x'])`: the preserved
geographic longitude, falling back to the working x coordinate. -/
def lonOf (g : Graph) (n : Nat) : ℚ :=
  match nodeAttrs g n with
  | some d => d.lon.getD d.x
  | none => 0

/-- `graph.nodes[n].get('lat', graph.nodes[n]['y'])`. -/
def latOf (g : Graph) (n : Nat) : ℚ :=
  match nodeAttrs g n with
  | some d => d.lat.getD d.y
  | none => 0

/-- The coordinate sequence of a line feature: the explicit geometry
verbatim when it is marked `crs == 'EPSG:4326'`, else the two endpoints'
`(lon, lat)` pairs. -/
def edgeCoords (g : Graph) (u v : Nat) (d : EdgeData) : List (ℚ × ℚ) :=
  match d.geometry with
  | some geomCoords =>
    if d.crs = some "EPSG:4326" then geomCoords
    else [(lonOf g u, latOf g u), (lonOf g v, latOf g v)]
  | none => [(lonOf g u, latOf g u), (lonOf g v, latOf g v)]

/-- A GeoJSON feature of `create_network_geojson`, flattened: geometry type
and coordinates plus the line / point properties. -/
structure Feature where
  geomType : String
  coordinates : List (ℚ × ℚ)
  propU : Nat := 0
  propV : Nat := 0
  propKey : Nat := 0
  propName : String := ""
  propHighway : String := ""
  propTraffic : Nat := 0
  propWidth : ℚ := 0
  propId : Nat := 0
  propType : String := ""
  deriving DecidableEq

/-- The LineString feature emitted for one directed edge. -/
def lineFeature (g : Graph) (trafficData : TMap) (e : Nat × Nat × EdgeData) : Feature :=
  { geomType := "LineString"
    coordinates := edgeCoords g e.1 e.2.1 e.2.2
    propU := e.1
    propV := e.2.1
    propKey := 0
    propName := edgeName e.2.2
    propHighway := e.2.2.highway.getD "road"
    propTraffic := dictGetD trafficData (e.1, e.2.1, 0) 0
    propWidth := 3 / 2 + (dictGetD trafficData (e.1, e.2.1, 0) 0 : ℚ) / 150 }

/-- The Point feature emitted for one node. -/
def nodeFeature (n : Nat × NodeData) : Feature :=
  { geomType := "Point"
    coordinates := [(n.2.lon.getD n.2.x, n.2.lat.getD n.2.y)]
    propId := n.1
    propType := "node" }

/-- `create_network_geojson(graph, traffic_data)` from src/app.py: one line
feature per directed edge, then one point feature per node unless the node
count exceeds 1000. -/
def create_network_geojson (g : Graph) (trafficData : TMap) : List Feature :=
  g.edges.map (lineFeature g trafficData)
    ++ (if g.nodes.length ≤ 1000 then g.nodes.map nodeFeature else [])

/-- C9 counterexample graph: both nodes carry preserved geographic
coordinates, but the single edge carries an explicit geometry marked
`crs == 'EPSG:4326'` whose coordinates are unrelated to the nodes. -/
def gC9 : Graph :=
  ⟨[(0, ⟨10, 20, some 1, some 2⟩), (1, ⟨30, 40, some 3, some 4⟩)],
   [(0, 1, { geometry := some [(9, 9)], crs := some "EPSG:4326" })]⟩

/-- C9 counterexample: the line feature for the `crs`-marked edge carries
the geometry's own pair (9, 9), which is not taken from either node's
preserved geographic coordinates (1, 2) and (3, 4). -/
theorem C9_claim_counterexample :
    ((create_network_geojson gC9 []).map (fun f => f.coordinates)).head?
      = some [(9, 9)] ∧
    lonOf gC9 0 = 1 ∧ latOf gC9 0 = 2 ∧ lonOf gC9 1 = 3 ∧ latOf gC9 1 = 4 ∧
    (9 : ℚ) ≠ 1 ∧ (9 : ℚ) ≠ 3 :=
  ⟨rfl, rfl, rfl, rfl, rfl, by norm_num, by norm_num⟩

/-- C9 (amended): for every graph whose edges carry no geometry marked
`crs == 'EPSG:4326'` (the one branch that emits an explicit geometry
verbatim), every line feature's coordinate list is exactly the two
endpoints' `(longitude, latitude)` pairs, preferring the preserved
geographic coordinates over the projected working coordinates. -/
theorem C9_amended_coordinate_order (g : Graph) (trafficData : TMap)
    (hcrs : ∀ e ∈ g.edges, e.2.2.crs ≠ some "EPSG:4326") :
    ∀ f ∈ create_network_geojson g trafficData, f.geomType = "LineString" →
      f.coordinates = [(lonOf g f.propU, latOf g f.propU),
        (lonOf g f.propV, latOf g f.propV)] := by
  intro f hf hline
  rcases List.mem_append.mp hf with h1 | h1
  · rcases List.mem_map.mp h1 with ⟨e, he, hfe⟩
    subst hfe
    show edgeCoords g e.1 e.2.1 e.2.2 = _
    unfold edgeCoords
    cases hg : e.2.2.geometry with
    | none => rfl
    | some geo =>
      show (if e.2.2.crs = some "EPSG:4326" then geo
        else [(lonOf g e.1, latOf g e.1), (lonOf g e.2.1, latOf g e.2.1)]) = _
      rw [if_neg (hcrs e he)]
      rfl
  · by_cases hn : g.nodes.length ≤ 1000
    · rw [if_pos hn] at h1
      rcases List.mem_map.mp h1 with ⟨n, hn', hfn⟩
      subst hfn
      have hpt : (nodeFeature n).geomType = "Point" := rfl
      rw [hpt] at hline
      exact absurd hline (by decide)
    · rw [if_neg hn] at h1
      exact absurd h1 (by simp)

/-- C9 witness graph: a plain edge with no explicit geometry; nodes carry
preserved geographic coordinates distinct from the projected ones. -/
def gC9w : Graph :=
  ⟨[(0, ⟨10, 20, some 1, some 2⟩), (1, ⟨30, 40, some 3, some 4⟩)], [(0, 1, {})]⟩

/-- The single line feature of the C9 witness graph. -/
def fC9w : Feature := lineFeature gC9w [] (0, 1, {})

/-- Witness for C9: the amended theorem applied to the concrete witness
graph; the emitted pairs are the preserved `(lon, lat)` pairs, not the
projected `(x, y)` ones. -/
theorem C9_amended_coordinate_order_witness :
    fC9w ∈ create_network_geojson gC9w [] ∧ fC9w.geomType = "LineString" ∧
    fC9w.coordinates = [(lonOf gC9w fC9w.propU, latOf gC9w fC9w.propU),
      (lonOf gC9w fC9w.propV, latOf gC9w fC9w.propV)] ∧
    fC9w.coordinates = [(1, 2), (3, 4)] := by
  have hmem : fC9w ∈ create_network_geojson gC9w [] := by
    apply List.mem_append_left
    show fC9w ∈ [lineFeature gC9w [] (0, 1, {})]
    exact List.mem_singleton_self _
  exact ⟨hmem, rfl,
    C9_amended_coordinate_order gC9w [] (by decide) fC9w hmem rfl, rfl⟩

/-- The structured result returned over the HTTP boundary: a success flag,
an error string on failure, a feature collection on success. -/
structure ApiResult where
  success : Bool
  errorText : Option String := none
  network : List Feature := []
  deriving DecidableEq

/-- The process-wide mutable state of src/app.py: the original network `G`,
the network with a closure `G_modified`, and the traffic mapping. -/
structure AppState where
  G : Option Graph
  G_modified : Option Graph
  edge_traffic : TMap
  deriving DecidableEq

/-- The `close_road` handler from src/app.py: fail when no network is
loaded; otherwise copy the original graph, remove the requested edge if
present, recompute the traffic mapping via `redistribute_traffic`, and
return the serialized modified network. -/
def close_road (st : AppState) (u v k : Nat) : ApiResult × AppState :=
  match st.G with
  | none => ({ success := false, errorText := some "No network loaded" }, st)
  | some g =>
    let gmod := if hasEdge g u v then removeEdge g u v else g
    let newTraffic := redistribute_traffic g gmod st.edge_traffic (u, v, k)
    ({ success := true, network := create_network_geojson gmod newTraffic },
     { G := some g, G_modified := some gmod, edge_traffic := newTraffic })

theorem hasEdge_iff_pair_mem (g : Graph) (a b : Nat) :
    hasEdge g a b = true ↔ (a, b) ∈ edgePairs g := by
  simp only [hasEdge, edgePairs, List.any_eq_true, List.mem_map,
    Bool.and_eq_true, decide_eq_true_eq]
  constructor
  · rintro ⟨e, he, h1, h2⟩
    exact ⟨e, he, by rw [h1, h2]⟩
  · rintro ⟨e, he, h1⟩
    rw [Prod.mk.injEq] at h1
    exact ⟨e, he, h1.1, h1.2⟩

theorem removeEdge_hasEdge_false (g : Graph) (u v : Nat) :
    hasEdge (removeEdge g u v) u v = false := by
  rw [Bool.eq_false_iff]
  intro hcon
  rcases List.any_eq_true.mp hcon with ⟨e, he, hpred⟩
  have he' : e ∈ g.edges.filter
      (fun e => !(decide (e.1 = u) && decide (e.2.1 = v))) := he
  rcases List.mem_filter.mp he' with ⟨_, hkeep⟩
  rw [hpred] at hkeep
  exact absurd hkeep (by decide)

theorem traffic_key_not_closed (g : Graph) (tr : TMap) (u v k : Nat)
    (hne : hasEdge g u v = false)
    (hinv : ∀ q ∈ tr, (q.1.1, q.1.2.1) ∈ edgePairs g) :
    ∀ q ∈ tr, q.1 ≠ (u, v, k) := by
  intro q hq hcon
  have hp := hinv q hq
  rw [hcon] at hp
  have hp' : (u, v) ∈ edgePairs g := hp
  have htrue := (hasEdge_iff_pair_mem g u v).mpr hp'
  rw [htrue] at hne
  exact Bool.true_eq_false.mp hne

theorem close_road_noop (st : AppState) (g : Graph) (u v k : Nat)
    (hG : st.G = some g)
    (hne : hasEdge g u v = false)
    (hnk : ∀ q ∈ st.edge_traffic, q.1 ≠ (u, v, k)) :
    (close_road st u v k).1.success = true ∧
    (close_road st u v k).2.G_modified = some g ∧
    (close_road st u v k).2.edge_traffic = st.edge_traffic := by
  have hget : dictGet st.edge_traffic (u, v, k) = none :=
    dictGet_eq_none_of_not_mem _ _ hnk
  have h0 : dictGetD st.edge_traffic (u, v, k) 0 = 0 := by
    unfold dictGetD
    rw [hget]
    rfl
  have hred : redistribute_traffic g g st.edge_traffic (u, v, k) = st.edge_traffic := by
    simp only [redistribute_traffic, h0]
    rw [if_neg (by omega)]
    exact dictPop_of_not_mem _ _ hnk
  refine ⟨?_, ?_, ?_⟩ <;> simp [close_road, hG, hne, hred]

/-- C3 state: the two-node graph `gC5` is loaded with traffic on its single
edge, and the closure request names the absent nodes 5 and 6. -/
def stC3 : AppState := ⟨some gC5, some gC5, [((0, 1, 0), 100)]⟩

/-- C3 counterexample: a closure request naming nodes 5 and 6, which are not
in the loaded graph, returns a success result, not the failure result the
claim requires. -/
theorem C3_claim_counterexample :
    5 ∉ nodeIds gC5 ∧ 6 ∉ nodeIds gC5 ∧
    (close_road stC3 5 6 0).1.success = true :=
  ⟨by decide, by decide, rfl⟩

/-- C3 (amended): a closure request naming nodes not present in the loaded
graph succeeds as a pure no-op — the modified graph equals the original and
the traffic mapping is returned unchanged — rather than failing. -/
theorem C3_amended_missing_nodes_noop (st : AppState) (g : Graph) (u v k : Nat)
    (hG : st.G = some g)
    (hwf : ∀ e ∈ g.edges, e.1 ∈ nodeIds g ∧ e.2.1 ∈ nodeIds g)
    (hinv : ∀ q ∈ st.edge_traffic, (q.1.1, q.1.2.1) ∈ edgePairs g)
    (habs : u ∉ nodeIds g ∨ v ∉ nodeIds g) :
    (close_road st u v k).1.success = true ∧
    (close_road st u v k).2.G_modified = some g ∧
    (close_road st u v k).2.edge_traffic = st.edge_traffic := by
  have hne : hasEdge g u v = false := by
    rw [Bool.eq_false_iff]
    intro hcon
    rcases (hasEdge_iff_pair_mem g u v).mp hcon with hp
    rcases List.mem_map.mp hp with ⟨e, he, hpe⟩
    rw [Prod.mk.injEq] at hpe
    rcases hwf e he with ⟨h1, h2⟩
    rcases habs with h3 | h3
    · exact h3 (hpe.1 ▸ h1)
    · exact h3 (hpe.2 ▸ h2)
  exact close_road_noop st g u v k hG hne
    (traffic_key_not_closed g st.edge_traffic u v k hne hinv)

/-- Witness for C3: the amended no-op behaviour on the concrete request
naming the absent nodes 5 and 6. -/
theorem C3_amended_missing_nodes_noop_witness :
    5 ∉ nodeIds gC5 ∧
    (close_road stC3 5 6 0).1.success = true ∧
    (close_road stC3 5 6 0).2.G_modified = some gC5 ∧
    (close_road stC3 5 6 0).2.edge_traffic = stC3.edge_traffic := by
  have h := C3_amended_missing_nodes_noop stC3 gC5 5 6 0 rfl (by decide) (by decide)
    (Or.inl (by decide))
  exact ⟨by decide, h.1, h.2.1, h.2.2⟩

/-- C4 (confirmed): whenever `close_road` returns a failure result, the
stored state — original graph, modified graph and traffic mapping — is
exactly what it was before the call. -/
theorem C4_failure_preserves_state (st : AppState) (u v k : Nat)
    (h : (close_road st u v k).1.success = false) :
    (close_road st u v k).2 = st := by
  rcases hG : st.G with _ | g
  · simp [close_road, hG]
  · exfalso
    simp [close_road, hG] at h

/-- The empty state before any network is loaded. -/
def stEmpty : AppState := ⟨none, none, []⟩

/-- Witness for C4: the failing call on the empty state leaves it unchanged. -/
theorem C4_failure_preserves_state_witness :
    (close_road stEmpty 0 1 0).1.success = false ∧
    (close_road stEmpty 0 1 0).2 = stEmpty :=
  ⟨rfl, C4_failure_preserves_state stEmpty 0 1 0 rfl⟩

/-- C8 (confirmed): closing an edge key whose endpoints exist but whose edge
is absent from the graph is a pure no-op — the modified graph equals the
original (hence equal edge sets) and the traffic mapping is returned
unchanged — provided the traffic mapping's keys are edges of the graph, as
every reachable mapping's are. -/
theorem C8_absent_edge_noop (st : AppState) (g : Graph) (u v k : Nat)
    (hG : st.G = some g)
    (hu : u ∈ nodeIds g) (hv : v ∈ nodeIds g)
    (hne : hasEdge g u v = false)
    (hinv : ∀ q ∈ st.edge_traffic, (q.1.1, q.1.2.1) ∈ edgePairs g) :
    (close_road st u v k).1.success = true ∧
    (close_road st u v k).2.G_modified = some g ∧
    (close_road st u v k).2.edge_traffic = st.edge_traffic :=
  close_road_noop st g u v k hG hne
    (traffic_key_not_closed g st.edge_traffic u v k hne hinv)

/-- C8 state: the detour graph is loaded; the request targets `(1, 0)`,
whose endpoints exist but which is not an edge. -/
def stC8 : AppState := ⟨some gDetour, some gDetour, [((0, 2, 0), 10)]⟩

/-- Witness for C8: the concrete absent-edge closure on the detour graph. -/
theorem C8_absent_edge_noop_witness :
    1 ∈ nodeIds gDetour ∧ 0 ∈ nodeIds gDetour ∧ hasEdge gDetour 1 0 = false ∧
    (close_road stC8 1 0 0).1.success = true ∧
    (close_road stC8 1 0 0).2.G_modified = some gDetour ∧
    (close_road stC8 1 0 0).2.edge_traffic = stC8.edge_traffic := by
  have h := C8_absent_edge_noop stC8 gDetour 1 0 0 rfl (by decide) (by decide)
    (by decide) (by decide)
  exact ⟨by decide, by decide, by decide, h.1, h.2.1, h.2.2⟩

/-- C10 (confirmed): closing `(u, v, k)` with `k ≠ 0` on an existing edge
whose generated volume is positive removes the edge from the modified graph
but looks up volume 0 (every generated key has discriminator 0), so nothing
is redistributed and the stale entry `(u, v, 0)` survives in the returned
mapping although the edge is gone from the modified graph. -/
theorem C10_nonzero_discriminator_stale_entry (st : AppState) (g g0 : Graph)
    (o : GenOracle) (u v k : Nat) (vol : Nat)
    (hG : st.G = some g)
    (htr : st.edge_traffic = generate_traffic g0 o)
    (hedge : hasEdge g u v = true)
    (hk : k ≠ 0)
    (hvol : dictGet st.edge_traffic (u, v, 0) = some vol)
    (hpos : 0 < vol) :
    (close_road st u v k).1.success = true ∧
    (close_road st u v k).2.G_modified = some (removeEdge g u v) ∧
    hasEdge (removeEdge g u v) u v = false ∧
    (close_road st u v k).2.edge_traffic = st.edge_traffic ∧
    dictGet (close_road st u v k).2.edge_traffic (u, v, 0) = some vol := by
  have hdisc : ∀ q ∈ st.edge_traffic, q.1.2.2 = 0 := by
    rw [htr]
    exact generate_traffic_disc_zero g0 o
  have hnk : ∀ q ∈ st.edge_traffic, q.1 ≠ (u, v, k) := by
    intro q hq hcon
    apply hk
    have hz := hdisc q hq
    rw [hcon] at hz
    exact hz
  have hget : dictGet st.edge_traffic (u, v, k) = none :=
    dictGet_eq_none_of_not_mem _ _ hnk
  have h0 : dictGetD st.edge_traffic (u, v, k) 0 = 0 := by
    unfold dictGetD
    rw [hget]
    rfl
  have hred : redistribute_traffic g (removeEdge g u v) st.edge_traffic (u, v, k)
      = st.edge_traffic := by
    simp only [redistribute_traffic, h0]
    rw [if_neg (by omega)]
    exact dictPop_of_not_mem _ _ hnk
  refine ⟨?_, ?_, removeEdge_hasEdge_false g u v, ?_, ?_⟩ <;>
    simp [close_road, hG, hedge, hred, hvol]

/-- C10 state: the single-edge graph is loaded with its freshly generated
traffic (volume 100 on key `(0, 1, 0)`). -/
def stC10 : AppState := ⟨some gC5, some gC5, generate_traffic gC5 oC5⟩

/-- Witness for C10: closing `(0, 1)` with discriminator 5 removes the edge
but leaves the generated entry `(0, 1, 0) ↦ 100` stale in the mapping. -/
theorem C10_nonzero_discriminator_stale_entry_witness :
    hasEdge gC5 0 1 = true ∧ (5 : Nat) ≠ 0 ∧
    (close_road stC10 0 1 5).1.success = true ∧
    (close_road stC10 0 1 5).2.G_modified = some (removeEdge gC5 0 1) ∧
    hasEdge (removeEdge gC5 0 1) 0 1 = false ∧
    (close_road stC10 0 1 5).2.edge_traffic = stC10.edge_traffic ∧
    dictGet (close_road stC10 0 1 5).2.edge_traffic (0, 1, 0) = some 100 := by
  have h := C10_nonzero_discriminator_stale_entry stC10 gC5 gC5 oC5 0 1 5 100
    rfl rfl (by decide) (by decide) gen_gC5_lookup (by decide)
  exact ⟨by decide, by decide, h.1, h.2.1, h.2.2.1, h.2.2.2.1, h.2.2.2.2⟩

end TrafficSim
